import Mathlib

/-!
Verification of the bounded circular interaction log
(`examples/python-fastapi/interaction_log.py`).

The Python class `InteractionLog` is shallowly embedded below.  Python
dictionaries are modelled as association lists with unique keys kept in
insertion order (`dictInsert` updates an existing key in place and appends a
new key at the end, `dictGet` returns the value of a key, exactly the
observable behaviour of `d[k] = v` and `d[k]` on a `dict`).  Python integers
are `Int`; the two cursors `_head`/`_count` are `Nat` since they are
non-negative in every state the constructor can produce.
-/

set_option maxHeartbeats 1000000

namespace ILog

/-- An entry: a Python `dict[str, Any]` as an association list with unique
keys in insertion order.  `V` stands for the (arbitrary) Python value type. -/
abbrev Entry (V : Type) := List (String × V)

/-- Python `d[k] = v` on a dict represented as a unique-key association
list: update the existing binding in place, or append a new one. -/
def dictInsert {V : Type} : Entry V → String → V → Entry V
  | [], k, v => [(k, v)]
  | (k0, v0) :: rest, k, v =>
    if k0 = k then (k, v) :: rest else (k0, v0) :: dictInsert rest k v

/-- Python `d[k]` / `k in d`: value of the first binding of `k`, if any. -/
def dictGet {V : Type} : Entry V → String → Option V
  | [], _ => none
  | (k0, v0) :: rest, k => if k0 = k then some v0 else dictGet rest k

/-- The entry built by `add`: `{"timestamp": ts, **kwargs}` — a dict whose
first binding is the log's timestamp `ts`, then the caller's keyword
arguments merged in order (a caller-supplied key overrides). -/
def mkEntry {V : Type} (ts : V) (kwargs : List (String × V)) : Entry V :=
  kwargs.foldl (fun d p => dictInsert d p.1 p.2) [("timestamp", ts)]

/-- State of a Python `InteractionLog` object: `_buffer` (list of
`None`-or-entry slots), `_max_size`, `_head`, `_count`. -/
structure InteractionLog (V : Type) where
  buffer : List (Option (Entry V))
  max_size : Int
  head : Nat
  count : Nat

/-- `__init__(max_size)`: `_buffer = [None] * max_size` (empty when
`max_size <= 0`, exactly as in Python), `_head = _count = 0`.  Note that the
constructor performs no validation of `max_size`. -/
def InteractionLog.init (V : Type) (max_size : Int) : InteractionLog V :=
  { buffer := List.replicate max_size.toNat none
    max_size := max_size
    head := 0
    count := 0 }

/-- `add(**kwargs)` in the valid regime (`head < len(buffer)` and
`max_size >= 1`, which holds in every state reachable from a constructor
call with positive capacity): store `{"timestamp": ts, **kwargs}` at slot
`head`, advance `head = (head + 1) % max_size`, increment `count` up to
`max_size`.  `ts` is the timestamp the Python code reads from the clock.
`addE` below also covers the failing regime. -/
def InteractionLog.add {V : Type} (log : InteractionLog V) (ts : V)
    (kwargs : List (String × V)) : InteractionLog V :=
  { buffer := log.buffer.set log.head (some (mkEntry ts kwargs))
    max_size := log.max_size
    head := (log.head + 1) % log.max_size.toNat
    count := if (log.count : Int) < log.max_size then log.count + 1 else log.count }

/-- `add(**kwargs)` with Python's failure behaviour made explicit:
`self._buffer[self._head] = entry` raises `IndexError` when the buffer is
shorter than `head + 1` (in particular always when the log was constructed
with `max_size <= 0`, since then `_buffer == []`), and the subsequent
`% self._max_size` would raise `ZeroDivisionError` when `max_size == 0`. -/
def InteractionLog.addE {V : Type} (log : InteractionLog V) (ts : V)
    (kwargs : List (String × V)) : Except String (InteractionLog V) :=
  if log.head < log.buffer.length then
    if log.max_size = 0 then
      Except.error "ZeroDivisionError: integer modulo by zero"
    else
      Except.ok (log.add ts kwargs)
  else
    Except.error "IndexError: list assignment index out of range"

/-- `get_recent(n)`: `count = min(n, self._count)`,
`start = (head - count + max_size) % max_size`, then walk `count` slots
forward with wraparound appending every non-`None` slot.  Out-of-range
reads are collapsed to `None` (they cannot occur when `max_size >= 1`). -/
def InteractionLog.get_recent {V : Type} (log : InteractionLog V) (n : Int) :
    List (Entry V) :=
  let count : Int := min n (log.count : Int)
  let start : Int := ((log.head : Int) - count + log.max_size) % log.max_size
  (List.range count.toNat).filterMap (fun (i : Nat) =>
    log.buffer.getD ((start + (i : Int)) % log.max_size).toNat none)

/-- `by_type[t] = by_type.get(t, 0) + 1` on the `by_type` dict. -/
def bumpType {V : Type} [DecidableEq V] : List (V × Nat) → V → List (V × Nat)
  | [], t => [(t, 1)]
  | (k, v) :: rest, t =>
    if k = t then (k, v + 1) :: rest else (k, v) :: bumpType rest t

/-- The body of the `get_stats` loop for one slot value `entry`:
`if entry and "type" in entry: by_type[t] = by_type.get(t, 0) + 1`
(an empty dict is falsy in Python, hence the `isEmpty` test). -/
def statsStep {V : Type} [DecidableEq V] (bt : List (V × Nat)) (entry : Entry V) :
    List (V × Nat) :=
  if entry.isEmpty then bt
  else
    match dictGet entry "type" with
    | some t => bumpType bt t
    | none => bt

/-- `get_stats()`: iterate the `count` logically valid slots from oldest to
newest (`idx = (head - count + i + max_size) % max_size`), tallying the
`type` field of each non-`None`, non-empty entry; return
`{"total": count, "by_type": by_type}`. -/
def InteractionLog.get_stats {V : Type} [DecidableEq V] (log : InteractionLog V) :
    Nat × List (V × Nat) :=
  let by_type := (List.range log.count).foldl (fun bt (i : Nat) =>
    let idx := (((log.head : Int) - (log.count : Int) + (i : Int) + log.max_size)
      % log.max_size).toNat
    match log.buffer.getD idx none with
    | some entry => statsStep bt entry
    | none => bt) []
  (log.count, by_type)

/-- `clear()`: reset `_head` and `_count` to `0`; `_buffer` and
`_max_size` are untouched. -/
def InteractionLog.clear {V : Type} (log : InteractionLog V) : InteractionLog V :=
  { log with head := 0, count := 0 }

/-- One client-visible mutating operation on a log. -/
inductive LogOp (V : Type) where
  | add (ts : V) (kwargs : List (String × V))
  | clear

/-- Apply one operation to a log state. -/
def applyOp {V : Type} (log : InteractionLog V) : LogOp V → InteractionLog V
  | .add ts kwargs => log.add ts kwargs
  | .clear => log.clear

/-- Run a sequence of operations left to right. -/
def runOps {V : Type} (log : InteractionLog V) (ops : List (LogOp V)) :
    InteractionLog V :=
  ops.foldl applyOp log

/-- Abstract effect of one `add` on the chronological list of retained
entries of a log of capacity `c`: append, dropping the oldest when full. -/
def absPush {V : Type} (c : Nat) (es : List (Entry V)) (e : Entry V) :
    List (Entry V) :=
  if es.length < c then es ++ [e] else es.drop 1 ++ [e]

/-- Abstract effect of one operation on the retained-entries list. -/
def absOp {V : Type} (c : Nat) (es : List (Entry V)) : LogOp V → List (Entry V)
  | .add ts kwargs => absPush c es (mkEntry ts kwargs)
  | .clear => []

/-- Chronological list of entries retained after running `ops` on a fresh
log of capacity `c` (oldest first, newest last). -/
def absRun {V : Type} (c : Nat) (ops : List (LogOp V)) : List (Entry V) :=
  ops.foldl (absOp c) []

/-- A pure sequence of `add` calls, as operations. -/
def addsOf {V : Type} (inputs : List (V × List (String × V))) : List (LogOp V) :=
  inputs.map (fun p => LogOp.add p.1 p.2)

/-- The entries built by a pure sequence of `add` calls, in call order. -/
def entriesOf {V : Type} (inputs : List (V × List (String × V))) : List (Entry V) :=
  inputs.map (fun p => mkEntry p.1 p.2)

/-- The `by_type` tally of a chronological entry list: the `get_stats` loop
body folded directly over the entries. -/
def typeCounts {V : Type} [DecidableEq V] (es : List (Entry V)) : List (V × Nat) :=
  es.foldl statsStep []

/-- Sum of the per-type counters of a `by_type` dict. -/
def sumCounts {V : Type} (bt : List (V × Nat)) : Nat :=
  (bt.map Prod.snd).sum

/-- A small concrete sequence of `add` inputs used to instantiate the
universally quantified theorems. -/
def sampleInputs : List (String × List (String × String)) :=
  [("t1", [("type", "mcp")]), ("t2", []), ("t3", [("type", "a2a")])]

/-- A small concrete operation sequence (with a `clear`) used to instantiate
the universally quantified theorems. -/
def sampleOps : List (LogOp String) :=
  [LogOp.add "t1" [("type", "mcp")], LogOp.clear,
   LogOp.add "t2" [], LogOp.add "t3" [("type", "a2a")]]

/-- Coupling invariant between a concrete log state and the chronological
list `es` of its retained entries: capacity and buffer length are `c`, the
cursors are in range, and for `i < es.length` the slot
`(head + c - es.length + i) % c` holds `es[i]` (so the window of retained
entries ends just before `head`, wrapping around). -/
structure repOk {V : Type} (c : Nat) (es : List (Entry V))
    (log : InteractionLog V) : Prop where
  hmax : log.max_size = (c : Int)
  hbuf : log.buffer.length = c
  hhead : log.head < c
  hcount : log.count = es.length
  hle : es.length ≤ c
  hslot : ∀ i, i < es.length →
    log.buffer.getD ((log.head + c - es.length + i) % c) none = some (es.getD i [])

/-- A natural number below `2 * c` reduced mod `c`: either itself or one
subtraction of `c`. -/
theorem two_pass_mod (a c : Nat) (h : a < 2 * c) :
    a % c = if a < c then a else a - c := by
  split
  · exact Nat.mod_eq_of_lt (by assumption)
  · rw [Nat.mod_eq_sub_mod (by omega)]
    exact Nat.mod_eq_of_lt (by omega)

/-- Adding a non-multiple offset `0 < d < c` moves a slot index `H < c` to a
different slot. -/
theorem add_mod_ne_self_of (H d c : Nat) (hH : H < c) (hd1 : 0 < d) (hd2 : d < c) :
    (H + d) % c ≠ H := by
  rw [two_pass_mod _ _ (by omega)]
  split <;> omega

/-- `getD` after `set` at the same (in-range) index. -/
theorem getD_set_eq {α : Type} (l : List α) (i : Nat) (a d : α) (h : i < l.length) :
    (l.set i a).getD i d = a := by
  induction l generalizing i with
  | nil => simp at h
  | cons x xs ih =>
    cases i with
    | zero => rfl
    | succ j =>
      simp only [List.length_cons] at h
      exact ih j (by omega)

/-- `getD` after `set` at a different index. -/
theorem getD_set_ne {α : Type} (l : List α) (i j : Nat) (a d : α) (hij : i ≠ j) :
    (l.set i a).getD j d = l.getD j d := by
  induction l generalizing i j with
  | nil => rfl
  | cons x xs ih =>
    cases i with
    | zero =>
      cases j with
      | zero => exact absurd rfl hij
      | succ j0 => rfl
    | succ i0 =>
      cases j with
      | zero => rfl
      | succ j0 => exact ih i0 j0 (by omega)

/-- Looking up the key just inserted. -/
theorem dictGet_dictInsert_self {V : Type} (d : Entry V) (k : String) (v : V) :
    dictGet (dictInsert d k v) k = some v := by
  induction d with
  | nil => simp [dictInsert, dictGet]
  | cons p rest ih =>
    obtain ⟨k0, v0⟩ := p
    by_cases h : k0 = k <;> simp [dictInsert, dictGet, h, ih]

/-- Inserting one key leaves the other keys unchanged. -/
theorem dictGet_dictInsert_ne {V : Type} (d : Entry V) (k k' : String) (v : V)
    (h : k ≠ k') :
    dictGet (dictInsert d k v) k' = dictGet d k' := by
  induction d with
  | nil => simp [dictInsert, dictGet, h]
  | cons p rest ih =>
    obtain ⟨k0, v0⟩ := p
    by_cases h0 : k0 = k
    · subst h0
      simp [dictInsert, dictGet, h]
    · by_cases h1 : k0 = k' <;> simp [dictInsert, dictGet, h0, h1, Ne.symm h, ih]

/-- Folding keyword arguments into a dict keeps the `timestamp` key
present. -/
theorem foldl_dictInsert_timestamp_isSome {V : Type} (kwargs : List (String × V)) :
    ∀ d : Entry V, (dictGet d "timestamp").isSome →
      (dictGet (kwargs.foldl (fun d p => dictInsert d p.1 p.2) d) "timestamp").isSome := by
  induction kwargs with
  | nil => exact fun d h => h
  | cons p rest ih =>
    intro d h
    apply ih
    by_cases hp : p.1 = "timestamp"
    · rw [← hp, dictGet_dictInsert_self]
      rfl
    · rw [dictGet_dictInsert_ne _ _ _ _ hp]
      exact h

/-- Every entry built by `add` carries a `timestamp` field. -/
theorem mkEntry_timestamp_isSome {V : Type} (ts : V) (kwargs : List (String × V)) :
    (dictGet (mkEntry ts kwargs) "timestamp").isSome := by
  apply foldl_dictInsert_timestamp_isSome
  simp [dictGet]

/-- When the caller does not pass a `timestamp` keyword, the entry's
`timestamp` field is the log's stamp. -/
theorem mkEntry_timestamp_of_not_mem {V : Type} (ts : V) (kwargs : List (String × V))
    (h : ∀ p ∈ kwargs, p.1 ≠ "timestamp") :
    dictGet (mkEntry ts kwargs) "timestamp" = some ts := by
  have key : ∀ (kw : List (String × V)), (∀ p ∈ kw, p.1 ≠ "timestamp") →
      ∀ d : Entry V, dictGet d "timestamp" = some ts →
      dictGet (kw.foldl (fun d p => dictInsert d p.1 p.2) d) "timestamp" = some ts := by
    intro kw
    induction kw with
    | nil => exact fun _ d h => h
    | cons p rest ih =>
      intro hk d hd
      apply ih (fun q hq => hk q (List.mem_cons_of_mem p hq))
      rw [dictGet_dictInsert_ne _ _ _ _ (hk p (List.mem_cons_self p rest))]
      exact hd
  apply key kwargs h
  simp [dictGet]

/-- Entries built by `add` are never the empty dict. -/
theorem mkEntry_ne_nil {V : Type} (ts : V) (kwargs : List (String × V)) :
    mkEntry ts kwargs ≠ [] := by
  intro h
  have hs := mkEntry_timestamp_isSome ts kwargs
  rw [h] at hs
  simp [dictGet] at hs

/-- A `filterMap` over `range` whose function always succeeds is a `map`. -/
theorem filterMap_range_eq_map {α : Type} {m : Nat} {g : Nat → Option α}
    {f : Nat → α} (h : ∀ i, i < m → g i = some (f i)) :
    (List.range m).filterMap g = (List.range m).map f := by
  induction m with
  | zero => rfl
  | succ k ih =>
    rw [List.range_succ k, List.filterMap_append, List.map_append,
      ih (fun i hi => h i (by omega))]
    simp [h k (by omega)]

/-- Reading the last `m` positions of a list in order is `drop`. -/
theorem map_range_getD_eq_drop {α : Type} (es : List α) (d : α) (m : Nat)
    (hm : m ≤ es.length) :
    (List.range m).map (fun i => es.getD (es.length - m + i) d) =
      es.drop (es.length - m) := by
  apply List.ext_getElem
  · simp
    omega
  · intro i h1 h2
    simp only [List.getElem_map, List.getElem_range]
    rw [List.getD_eq_getElem es d (by simp at h1; omega), List.getElem_drop]

/-- Two folds over `range m` with pointwise equal bodies agree. -/
theorem foldl_range_congr {α : Type} {m : Nat} {f g : α → Nat → α} {a : α}
    (h : ∀ b i, i < m → f b i = g b i) :
    (List.range m).foldl f a = (List.range m).foldl g a := by
  induction m with
  | zero => rfl
  | succ k ih =>
    rw [List.range_succ k, List.foldl_append, List.foldl_append,
      ih (fun b i hi => h b i (by omega))]
    simp [h _ k (by omega)]

/-- A fold over `range es.length` reading `es` positionally is a fold over
`es`. -/
theorem foldl_range_getD {α β : Type} (es : List α) (d : α) (step : β → α → β) :
    ∀ b : β, (List.range es.length).foldl (fun acc i => step acc (es.getD i d)) b
      = es.foldl step b := by
  induction es with
  | nil => exact fun b => rfl
  | cons x rest ih =>
    intro b
    show (List.range (rest.length + 1)).foldl _ b = _
    rw [List.range_succ_eq_map rest.length]
    simp only [List.foldl_cons, List.getD_cons_zero, List.foldl_map,
      Nat.succ_eq_add_one, List.getD_cons_succ]
    exact ih (step b x)

/-- `getD` at the junction index of an appended singleton. -/
theorem getD_concat_length {α : Type} (l : List α) (a d : α) :
    (l ++ [a]).getD l.length d = a := by
  induction l with
  | nil => rfl
  | cons x xs ih => simp [ih]

/-- `add` preserves the coupling invariant, pushing the new entry on the
abstract side (and dropping the oldest when the log is full). -/
theorem add_preserves {V : Type} (c : Nat) (hc : 1 ≤ c) {es : List (Entry V)}
    {log : InteractionLog V} (hrep : repOk c es log) (ts : V)
    (kwargs : List (String × V)) :
    repOk c (absPush c es (mkEntry ts kwargs)) (log.add ts kwargs) := by
  obtain ⟨hmax, hbuf, hhead, hcount, hle, hslot⟩ := hrep
  have hmaxt : log.max_size.toNat = c := by rw [hmax]; exact Int.toNat_natCast c
  have hcond : ((log.count : Int) < log.max_size) ↔ es.length < c := by
    rw [hmax, hcount]
    exact_mod_cast Iff.rfl
  have hA : (log.head + 1) % c < c := Nat.mod_lt _ (by omega)
  have hHb : log.head < log.buffer.length := by omega
  by_cases hLc : es.length < c
  · -- the log is not yet full: the new entry is appended
    rw [absPush, if_pos hLc]
    refine ⟨hmax, ?_, ?_, ?_, by simp; omega, ?_⟩
    · show (log.buffer.set log.head _).length = c
      simp [List.length_set, hbuf]
    · show (log.head + 1) % log.max_size.toNat < c
      rw [hmaxt]
      exact hA
    · show (if (log.count : Int) < log.max_size then log.count + 1 else log.count)
        = (es ++ [mkEntry ts kwargs]).length
      rw [if_pos (hcond.mpr hLc)]
      simp [hcount]
    · intro i hi
      simp only [List.length_append, List.length_cons, List.length_nil] at hi
      show (log.buffer.set log.head _).getD
        (((log.head + 1) % log.max_size.toNat + c - (es ++ [mkEntry ts kwargs]).length
          + i) % c) none = some ((es ++ [mkEntry ts kwargs]).getD i [])
      rw [hmaxt]
      simp only [List.length_append, List.length_cons, List.length_nil]
      rcases Nat.lt_or_ge i es.length with hiL | hiL
      · -- previously-retained entries keep their slots
        have hEq : ((log.head + 1) % c + c - (es.length + 1 + 0) + i) % c
            = (log.head + c - es.length + i) % c := by
          have h1 : (log.head + 1) % c + c - (es.length + 1 + 0) + i
              = (log.head + 1) % c + ((c - (es.length + 1)) + i) := by omega
          rw [h1, Nat.mod_add_mod]
          congr 1
          omega
        have hne : (log.head + c - es.length + i) % c ≠ log.head := by
          have h2 : log.head + c - es.length + i
              = log.head + (c - es.length + i) := by omega
          rw [h2]
          exact add_mod_ne_self_of log.head (c - es.length + i) c hhead
            (by omega) (by omega)
        rw [hEq, getD_set_ne _ _ _ _ _ (Ne.symm hne),
          List.getD_append _ _ _ _ hiL]
        exact hslot i hiL
      · -- the new entry lands exactly at the old `head` slot
        have hiEq : i = es.length := by omega
        subst hiEq
        have hEq : ((log.head + 1) % c + c - (es.length + 1 + 0) + es.length) % c
            = log.head := by
          have h1 : (log.head + 1) % c + c - (es.length + 1 + 0) + es.length
              = (log.head + 1) % c + (c - 1) := by omega
          rw [h1, Nat.mod_add_mod]
          have h2 : log.head + 1 + (c - 1) = log.head + c := by omega
          rw [h2, Nat.add_mod_right]
          exact Nat.mod_eq_of_lt hhead
        rw [hEq, getD_set_eq _ _ _ _ hHb, getD_concat_length]
  · -- the log is full: the oldest entry is overwritten
    have hLe : es.length = c := by omega
    rw [absPush, if_neg hLc]
    have hlen : (es.drop 1 ++ [mkEntry ts kwargs]).length = c := by
      simp [List.length_drop]
      omega
    refine ⟨hmax, ?_, ?_, ?_, by omega, ?_⟩
    · show (log.buffer.set log.head _).length = c
      simp [List.length_set, hbuf]
    · show (log.head + 1) % log.max_size.toNat < c
      rw [hmaxt]
      exact hA
    · show (if (log.count : Int) < log.max_size then log.count + 1 else log.count)
        = (es.drop 1 ++ [mkEntry ts kwargs]).length
      rw [if_neg (fun hcon => absurd (hcond.mp hcon) (by omega)), hlen, hcount, hLe]
    · intro i hi
      rw [hlen] at hi
      show (log.buffer.set log.head _).getD
        (((log.head + 1) % log.max_size.toNat + c - (es.drop 1 ++ [mkEntry ts kwargs]).length
          + i) % c) none = some ((es.drop 1 ++ [mkEntry ts kwargs]).getD i [])
      rw [hmaxt, hlen]
      have hEq0 : ((log.head + 1) % c + c - c + i) % c = (log.head + 1 + i) % c := by
        have h1 : (log.head + 1) % c + c - c + i = (log.head + 1) % c + i := by omega
        rw [h1, Nat.mod_add_mod]
      rw [hEq0]
      rcases Nat.lt_or_ge i (c - 1) with hiC | hiC
      · -- surviving entries: slot of `es[1+i]`, untouched by the write
        have hold := hslot (1 + i) (by omega)
        have hEq : (log.head + 1 + i) % c = (log.head + c - es.length + (1 + i)) % c := by
          congr 1
          omega
        have hne : (log.head + 1 + i) % c ≠ log.head := by
          have h2 : log.head + 1 + i = log.head + (1 + i) := by omega
          rw [h2]
          exact add_mod_ne_self_of log.head (1 + i) c hhead (by omega) (by omega)
        rw [getD_set_ne _ _ _ _ _ (Ne.symm hne), hEq,
          List.getD_append _ _ _ _ (by simp [List.length_drop]; omega)]
        rw [hold]
        have hdg : (es.drop 1).getD i [] = es.getD (1 + i) [] := by
          rw [List.getD_eq_getElem _ _ (by simp [List.length_drop]; omega),
            List.getD_eq_getElem _ _ (by omega)]
          exact List.getElem_drop ..
        rw [hdg]
      · -- the new entry lands at the old `head` slot, the junction index
        have hiEq : i = c - 1 := by omega
        subst hiEq
        have hEq : (log.head + 1 + (c - 1)) % c = log.head := by
          have h2 : log.head + 1 + (c - 1) = log.head + c := by omega
          rw [h2, Nat.add_mod_right]
          exact Nat.mod_eq_of_lt hhead
        have hjunction : (es.drop 1).length = c - 1 := by
          simp [List.length_drop]
          omega
        rw [hEq, getD_set_eq _ _ _ _ hHb, ← hjunction, getD_concat_length]

/-- `clear` preserves the coupling invariant with the empty abstract list. -/
theorem clear_preserves {V : Type} (c : Nat) (hc : 1 ≤ c) {es : List (Entry V)}
    {log : InteractionLog V} (hrep : repOk c es log) :
    repOk c [] log.clear := by
  obtain ⟨hmax, hbuf, _, _, _, _⟩ := hrep
  exact ⟨hmax, hbuf, by show 0 < c; omega, rfl, by simp,
    fun i hi => absurd hi (by simp)⟩

/-- The freshly constructed log of positive capacity `c` is coupled with the
empty abstract list. -/
theorem init_repOk (V : Type) (c : Nat) (hc : 1 ≤ c) :
    repOk c [] (InteractionLog.init V (c : Int)) := by
  refine ⟨rfl, ?_, by show 0 < c; omega, rfl, by simp,
    fun i hi => absurd hi (by simp)⟩
  show (List.replicate ((c : Int)).toNat (none : Option (Entry V))).length = c
  simp

/-- Running any operation sequence preserves the coupling invariant. -/
theorem runOps_repOk {V : Type} (c : Nat) (hc : 1 ≤ c) (ops : List (LogOp V)) :
    ∀ (log : InteractionLog V) (es : List (Entry V)), repOk c es log →
      repOk c (ops.foldl (absOp c) es) (runOps log ops) := by
  induction ops with
  | nil => exact fun _ _ h => h
  | cons op rest ih =>
    intro log es h
    show repOk c (rest.foldl (absOp c) (absOp c es op)) (runOps (applyOp log op) rest)
    apply ih
    cases op with
    | add ts kwargs => exact add_preserves c hc h ts kwargs
    | clear => exact clear_preserves c hc h

/-- Every reachable state of a capacity-`c` log is coupled with the
chronological list `absRun c ops` of its retained entries. -/
theorem absRun_repOk {V : Type} (c : Nat) (hc : 1 ≤ c) (ops : List (LogOp V)) :
    repOk c (absRun c ops) (runOps (InteractionLog.init V (c : Int)) ops) :=
  runOps_repOk c hc ops _ [] (init_repOk V c hc)

/-- Under the coupling invariant, `get_recent n` returns the suffix of the
chronological retained-entries list of length `min n count` (all of it when
`n` exceeds the count, nothing when `n ≤ 0`). -/
theorem get_recent_spec {V : Type} (c : Nat) {es : List (Entry V)}
    {log : InteractionLog V} (hrep : repOk c es log) (n : Int) :
    log.get_recent n = es.drop (es.length - (min n (es.length : Int)).toNat) := by
  obtain ⟨hmax, hbuf, hhead, hcount, hle, hslot⟩ := hrep
  simp only [InteractionLog.get_recent, hcount, hmax]
  rcases lt_or_le n 0 with hn | hn
  · have h0 : (min n (es.length : Int)).toNat = 0 :=
      Int.toNat_of_nonpos (le_trans (min_le_left _ _) (by omega))
    rw [h0]
    simp [List.drop_length]
  · have hmin0 : (0 : Int) ≤ min n (es.length : Int) := le_min hn (Int.natCast_nonneg _)
    set m := (min n (es.length : Int)).toNat with hm
    have hmle : m ≤ es.length := Int.toNat_le.mpr (min_le_right _ _)
    have hmcast : ((m : Nat) : Int) = min n (es.length : Int) := Int.toNat_of_nonneg hmin0
    have hbody : ∀ i, i < m →
        log.buffer.getD ((((log.head : Int) - min n ↑es.length + ↑c) % ↑c + ↑i) % ↑c).toNat none
          = some (es.getD (es.length - m + i) []) := by
      intro i hi
      have h1 : ((log.head : Int) - min n ↑es.length + ↑c)
          = ((log.head + c - m : Nat) : Int) := by
        rw [← hmcast]
        omega
      rw [h1]
      have h2 : ((((log.head + c - m : Nat) : Int)) % ↑c + ↑i) % ↑c
          = (((((log.head + c - m) % c + i) % c : Nat)) : Int) := by
        push_cast
        rfl
      rw [h2, Int.toNat_natCast, Nat.mod_add_mod]
      have h3 : (log.head + c - m + i) % c
          = (log.head + c - es.length + (es.length - m + i)) % c := by
        congr 1
        omega
      rw [h3]
      exact hslot (es.length - m + i) (by omega)
    exact (filterMap_range_eq_map hbody).trans (map_range_getD_eq_drop es [] m hmle)

/-- Under the coupling invariant, `get_stats` returns the retained count and
the `by_type` tally of the retained entries in chronological order. -/
theorem get_stats_spec {V : Type} [DecidableEq V] (c : Nat)
    {es : List (Entry V)} {log : InteractionLog V} (hrep : repOk c es log) :
    log.get_stats = (es.length, typeCounts es) := by
  obtain ⟨hmax, hbuf, hhead, hcount, hle, hslot⟩ := hrep
  simp only [InteractionLog.get_stats, hcount, hmax]
  refine Prod.ext rfl ?_
  show (List.range es.length).foldl _ [] = typeCounts es
  have hcong : ∀ (bt : List (V × Nat)) (i : Nat), i < es.length →
      (match log.buffer.getD
          (((log.head : Int) - (es.length : Int) + (i : Int) + (c : Int)) % (c : Int)).toNat
          none with
        | some entry => statsStep bt entry
        | none => bt)
      = statsStep bt (es.getD i []) := by
    intro bt i hi
    have h1 : ((log.head : Int) - (es.length : Int) + (i : Int) + (c : Int))
        = ((log.head + c - es.length + i : Nat) : Int) := by omega
    have h2 : ∀ X : Nat, (((X : Int)) % (c : Int)).toNat = X % c := by
      intro X
      have hmc : ((X % c : Nat) : Int) = (X : Int) % (c : Int) := by
        push_cast
        ring
      rw [← hmc, Int.toNat_natCast]
    rw [h1, h2 (log.head + c - es.length + i), hslot i hi]
  exact (foldl_range_congr hcong).trans (foldl_range_getD es [] statsStep [])

theorem absRun_addsOf {V : Type} (c : Nat) (hc : 1 ≤ c)
    (inputs : List (V × List (String × V))) :
    absRun c (addsOf inputs) = (entriesOf inputs).drop (inputs.length - c) := by
  induction inputs using List.reverseRecOn with
  | nil => simp [absRun, addsOf, entriesOf]
  | append_singleton ys y ih =>
    rw [addsOf, List.map_append, absRun, List.foldl_append]
    show absOp c ((ys.map (fun p => LogOp.add p.1 p.2)).foldl (absOp c) [])
      (LogOp.add y.1 y.2) = _
    have hprev : (ys.map (fun p => LogOp.add p.1 p.2)).foldl (absOp c) []
        = absRun c (addsOf ys) := rfl
    rw [hprev, ih]
    have hElen : (entriesOf ys).length = ys.length := by simp [entriesOf]
    show absPush c ((entriesOf ys).drop (ys.length - c)) (mkEntry y.1 y.2)
      = (entriesOf (ys ++ [y])).drop ((ys ++ [y]).length - c)
    have hEapp : entriesOf (ys ++ [y]) = entriesOf ys ++ [mkEntry y.1 y.2] := by
      simp [entriesOf]
    rw [hEapp]
    have hlapp : (ys ++ [y]).length = ys.length + 1 := by simp
    rw [hlapp]
    rcases Nat.lt_or_ge ys.length c with hkc | hkc
    · have h0 : ys.length - c = 0 := by omega
      have h1 : ys.length + 1 - c = 0 := by omega
      rw [h0, h1, List.drop_zero, List.drop_zero, absPush,
        if_pos (by omega : (entriesOf ys).length < c)]
    · have hplen : ((entriesOf ys).drop (ys.length - c)).length = c := by
        simp [List.length_drop, hElen]
        omega
      rw [absPush, if_neg (by omega : ¬ ((entriesOf ys).drop (ys.length - c)).length < c)]
      rw [List.drop_drop]
      rw [List.drop_append_of_le_length (by omega : ys.length + 1 - c ≤ (entriesOf ys).length)]
      congr 2
      omega

theorem sumCounts_bumpType {V : Type} [DecidableEq V] (bt : List (V × Nat)) (t : V) :
    sumCounts (bumpType bt t) = sumCounts bt + 1 := by
  induction bt with
  | nil => rfl
  | cons p rest ih =>
    obtain ⟨k, v⟩ := p
    by_cases h : k = t
    · simp [bumpType, h, sumCounts]
      omega
    · simp [bumpType, h, sumCounts] at ih ⊢
      omega

theorem statsStep_sum {V : Type} [DecidableEq V] (bt : List (V × Nat)) (e : Entry V)
    (he : e ≠ []) :
    sumCounts (statsStep bt e)
      = sumCounts bt + (if (dictGet e "type").isSome then 1 else 0) := by
  rw [statsStep]
  have hemp : e.isEmpty = false := by
    cases e
    · exact absurd rfl he
    · rfl
  rw [hemp]
  cases hdg : dictGet e "type" with
  | none => simp [hdg]
  | some t => simp [hdg, sumCounts_bumpType]

theorem foldl_statsStep_sum {V : Type} [DecidableEq V] :
    ∀ (es : List (Entry V)) (bt : List (V × Nat)), (∀ e ∈ es, e ≠ []) →
      sumCounts (es.foldl statsStep bt)
        = sumCounts bt + es.countP (fun e => (dictGet e "type").isSome) := by
  intro es
  induction es with
  | nil => simp
  | cons e rest ih =>
    intro bt hne
    simp only [List.foldl_cons, List.countP_cons]
    rw [ih (statsStep bt e) (fun x hx => hne x (List.mem_cons_of_mem e hx)),
      statsStep_sum bt e (hne e (List.mem_cons_self e rest))]
    cases hdg : dictGet e "type" with
    | none => simp [hdg]
    | some t =>
      simp [hdg]
      omega

theorem countP_type_split {V : Type} (es : List (Entry V)) :
    es.countP (fun e => (dictGet e "type").isSome)
      + es.countP (fun e => (dictGet e "type").isNone) = es.length := by
  induction es with
  | nil => rfl
  | cons e rest ih =>
    simp only [List.countP_cons, List.length_cons]
    cases hdg : dictGet e "type" <;> simp [hdg] <;> omega

theorem typeCounts_partition {V : Type} [DecidableEq V] (es : List (Entry V))
    (hne : ∀ e ∈ es, e ≠ []) :
    sumCounts (typeCounts es) + es.countP (fun e => (dictGet e "type").isNone)
      = es.length := by
  rw [typeCounts, foldl_statsStep_sum es [] hne]
  have h0 : sumCounts ([] : List (V × Nat)) = 0 := rfl
  rw [h0, Nat.zero_add]
  exact countP_type_split es

theorem absRun_mem_mkEntry {V : Type} (c : Nat) (ops : List (LogOp V)) :
    ∀ e ∈ absRun c ops, ∃ ts kwargs, e = mkEntry ts kwargs := by
  have key : ∀ (ops2 : List (LogOp V)) (es : List (Entry V)),
      (∀ e ∈ es, ∃ ts kwargs, e = mkEntry ts kwargs) →
      ∀ e ∈ ops2.foldl (absOp c) es, ∃ ts kwargs, e = mkEntry ts kwargs := by
    intro ops2
    induction ops2 with
    | nil => exact fun es h => h
    | cons op rest ih =>
      intro es h
      show ∀ e ∈ rest.foldl (absOp c) (absOp c es op), _
      apply ih
      cases op with
      | clear =>
        intro e he
        exact absurd he (by simp [absOp])
      | add ts kwargs =>
        intro e he
        show ∃ ts2 kwargs2, e = mkEntry ts2 kwargs2
        by_cases hlen : es.length < c
        · rw [absOp, absPush, if_pos hlen] at he
          rcases List.mem_append.mp he with h1 | h1
          · exact h e h1
          · exact ⟨ts, kwargs, List.mem_singleton.mp h1⟩
        · rw [absOp, absPush, if_neg hlen] at he
          rcases List.mem_append.mp he with h1 | h1
          · exact h e (List.drop_subset _ _ h1)
          · exact ⟨ts, kwargs, List.mem_singleton.mp h1⟩
  exact key ops [] (fun e he => absurd he (by simp))

theorem absRun_mem_ne_nil {V : Type} (c : Nat) (ops : List (LogOp V)) :
    ∀ e ∈ absRun c ops, e ≠ [] := by
  intro e he
  obtain ⟨ts, kw, rfl⟩ := absRun_mem_mkEntry c ops e he
  exact mkEntry_ne_nil ts kw


theorem get_recent_of_count_zero {V : Type} (log : InteractionLog V)
    (h : log.count = 0) (n : Int) : log.get_recent n = [] := by
  simp only [InteractionLog.get_recent, h]
  have h0 : (min n ((0 : Nat) : Int)).toNat = 0 :=
    Int.toNat_of_nonpos (le_trans (min_le_right _ _) (by simp))
  rw [h0]
  rfl

theorem get_stats_of_count_zero {V : Type} [DecidableEq V]
    (log : InteractionLog V) (h : log.count = 0) : log.get_stats = (0, []) := by
  simp [InteractionLog.get_stats, h]

/-- Claim C1: for every log of capacity `c ≥ 1` and every sequence of `add`
calls, `get_recent n` returns exactly the last `min n count` entries in
chronological order (the suffix of the insertion-ordered entry list, oldest
of the window first, newest last); `n` may exceed `count` or the capacity,
the result length always equals `min n count`, and `get_recent 0` is empty
regardless of log content. -/
theorem claim1_get_recent_window {V : Type} (c : Nat) (hc : 1 ≤ c)
    (inputs : List (V × List (String × V))) (n : Nat) :
    (runOps (InteractionLog.init V (c : Int)) (addsOf inputs)).get_recent ((n : Nat) : Int)
      = (entriesOf inputs).drop (inputs.length
          - min n (runOps (InteractionLog.init V (c : Int)) (addsOf inputs)).count)
    ∧ ((runOps (InteractionLog.init V (c : Int)) (addsOf inputs)).get_recent ((n : Nat) : Int)).length
      = min n (runOps (InteractionLog.init V (c : Int)) (addsOf inputs)).count
    ∧ (runOps (InteractionLog.init V (c : Int)) (addsOf inputs)).get_recent 0 = [] := by
  have hrep := absRun_repOk c hc (addsOf inputs)
  have habs := absRun_addsOf c hc inputs
  have hElen : (entriesOf inputs).length = inputs.length := by simp [entriesOf]
  have hL : (absRun c (addsOf inputs)).length = inputs.length - (inputs.length - c) := by
    rw [habs, List.length_drop, hElen]
  have hcount := hrep.hcount
  have hmint : ((min (n : Int) ((absRun c (addsOf inputs)).length : Int))).toNat
      = min n (absRun c (addsOf inputs)).length := by
    rw [← Nat.cast_min]
    exact Int.toNat_natCast _
  refine ⟨?_, ?_, ?_⟩
  · rw [get_recent_spec c hrep, hmint, hcount, habs, List.drop_drop]
    congr 1
    have hdl : (List.drop (inputs.length - c) (entriesOf inputs)).length
        = inputs.length - (inputs.length - c) := by
      rw [List.length_drop, hElen]
    omega
  · rw [get_recent_spec c hrep, hmint, hcount, List.length_drop]
    have hminle : min n (absRun c (addsOf inputs)).length
        ≤ (absRun c (addsOf inputs)).length := Nat.min_le_right _ _
    omega
  · rw [get_recent_spec c hrep 0]
    have h0 : (min (0 : Int) ((absRun c (addsOf inputs)).length : Int)).toNat = 0 :=
      Int.toNat_of_nonpos (min_le_left _ _)
    rw [h0, Nat.sub_zero, List.drop_length]

/-- Claim C2: for every log of capacity `c ≥ 1`, once `count = c` a further
`add` overwrites the slot pointed at by `head`, `count` stays at `c`, and
both before and after that `add` any window request `n ≥ c` returns exactly
the last `c` entries added — the overwritten oldest entries appear in no
`get_recent` result (e.g. capacity 3 with adds A, B, C, D yields [B, C, D]
for both `get_recent 3` and `get_recent 10`) and are not counted in
`get_stats`, which tallies exactly the `c` retained entries. -/
theorem claim2_overwrite_discipline {V : Type} [DecidableEq V] (c : Nat) (hc : 1 ≤ c)
    (inputs : List (V × List (String × V))) (hfull : c ≤ inputs.length)
    (n : Nat) (hn : c ≤ n) (ts : V) (kwargs : List (String × V)) :
    (runOps (InteractionLog.init V (c : Int)) (addsOf inputs)).count = c
    ∧ (runOps (InteractionLog.init V (c : Int)) (addsOf inputs)).get_recent ((n : Nat) : Int)
        = (entriesOf inputs).drop (inputs.length - c)
    ∧ ((runOps (InteractionLog.init V (c : Int)) (addsOf inputs)).add ts kwargs).buffer
        = (runOps (InteractionLog.init V (c : Int)) (addsOf inputs)).buffer.set
            (runOps (InteractionLog.init V (c : Int)) (addsOf inputs)).head
            (some (mkEntry ts kwargs))
    ∧ ((runOps (InteractionLog.init V (c : Int)) (addsOf inputs)).add ts kwargs).count = c
    ∧ ((runOps (InteractionLog.init V (c : Int)) (addsOf inputs)).add ts kwargs).get_recent ((n : Nat) : Int)
        = ((entriesOf inputs).drop (inputs.length - c)).drop 1 ++ [mkEntry ts kwargs]
    ∧ (runOps (InteractionLog.init V (c : Int)) (addsOf inputs)).get_stats
        = (c, typeCounts ((entriesOf inputs).drop (inputs.length - c))) := by
  have hrep := absRun_repOk c hc (addsOf inputs)
  have habs := absRun_addsOf c hc inputs
  have hElen : (entriesOf inputs).length = inputs.length := by simp [entriesOf]
  have hL : (absRun c (addsOf inputs)).length = c := by
    rw [habs, List.length_drop, hElen]
    omega
  have hrep2 := add_preserves c hc hrep ts kwargs
  have hpush : absPush c (absRun c (addsOf inputs)) (mkEntry ts kwargs)
      = (absRun c (addsOf inputs)).drop 1 ++ [mkEntry ts kwargs] := by
    rw [absPush, if_neg (by omega)]
  have hL2 : (absPush c (absRun c (addsOf inputs)) (mkEntry ts kwargs)).length = c := by
    rw [hpush]
    simp [List.length_drop]
    omega
  have hfullmin : ∀ L : Nat, L ≤ n → ((min ((n : Nat) : Int) (L : Int))).toNat = L := by
    intro L hLn
    rw [min_eq_right (by exact_mod_cast hLn), Int.toNat_natCast]
  refine ⟨?_, ?_, rfl, ?_, ?_, ?_⟩
  · rw [hrep.hcount, hL]
  · rw [get_recent_spec c hrep, hL, hfullmin c (by omega), Nat.sub_self,
      List.drop_zero, habs]
  · rw [hrep2.hcount, hL2]
  · rw [get_recent_spec c hrep2, hL2, hfullmin c (by omega), Nat.sub_self,
      List.drop_zero, hpush, habs]
  · rw [get_stats_spec c hrep, hL, habs]

/-- Claim C4: after `k` `add` calls into a capacity-`c` log, `get_stats`
reports `total = k` when `k ≤ c` and `total = c` when `k > c`. -/
theorem claim4_stats_total {V : Type} [DecidableEq V] (c : Nat) (hc : 1 ≤ c)
    (inputs : List (V × List (String × V))) :
    (inputs.length ≤ c →
      ((runOps (InteractionLog.init V (c : Int)) (addsOf inputs)).get_stats).1
        = inputs.length)
    ∧ (c < inputs.length →
      ((runOps (InteractionLog.init V (c : Int)) (addsOf inputs)).get_stats).1 = c) := by
  have hrep := absRun_repOk c hc (addsOf inputs)
  have habs := absRun_addsOf c hc inputs
  have hElen : (entriesOf inputs).length = inputs.length := by simp [entriesOf]
  have hfst : ((runOps (InteractionLog.init V (c : Int)) (addsOf inputs)).get_stats).1
      = (absRun c (addsOf inputs)).length := by
    rw [get_stats_spec c hrep]
  have hL : (absRun c (addsOf inputs)).length = inputs.length - (inputs.length - c) := by
    rw [habs, List.length_drop, hElen]
  constructor
  · intro h
    rw [hfst, hL]
    omega
  · intro h
    rw [hfst, hL]
    omega

/-- Claim C5: in every reachable log state, the sum of the `by_type` counts
of `get_stats` plus the number of retained entries lacking a `type` field
equals `total` (untyped entries are counted in the total but in no
bucket). -/
theorem claim5_stats_partition {V : Type} [DecidableEq V] (c : Nat) (hc : 1 ≤ c)
    (ops : List (LogOp V)) :
    sumCounts ((runOps (InteractionLog.init V (c : Int)) ops).get_stats).2
      + ((runOps (InteractionLog.init V (c : Int)) ops).get_recent
          (((runOps (InteractionLog.init V (c : Int)) ops).count : Nat) : Int)).countP
          (fun e => (dictGet e "type").isNone)
      = ((runOps (InteractionLog.init V (c : Int)) ops).get_stats).1 := by
  have hrep := absRun_repOk c hc ops
  have hcount := hrep.hcount
  have hrecent : (runOps (InteractionLog.init V (c : Int)) ops).get_recent
      (((runOps (InteractionLog.init V (c : Int)) ops).count : Nat) : Int)
      = absRun c ops := by
    rw [get_recent_spec c hrep, hcount, min_self, Int.toNat_natCast,
      Nat.sub_self, List.drop_zero]
  rw [get_stats_spec c hrep, hrecent]
  exact typeCounts_partition (absRun c ops) (absRun_mem_ne_nil c ops)

/-- Claim C6: after `clear`, every read returns an empty result —
`get_recent n = []` for every `n` and `get_stats = (0, [])` — regardless of
what the log contained before. -/
theorem claim6_clear_then_read_empty {V : Type} [DecidableEq V]
    (log : InteractionLog V) (_hcap : 1 ≤ log.max_size) (n : Int) :
    (log.clear).get_recent n = [] ∧ (log.clear).get_stats = (0, []) :=
  ⟨get_recent_of_count_zero log.clear rfl n, get_stats_of_count_zero log.clear rfl⟩

/-- Claim C7: `clear` mutates only the `head` and `count` cursors (both to
0); the capacity and the physical slot array are left unchanged, and the
stale physical entries are never exposed by any read because `count` gates
all reads. -/
theorem claim7_clear_frame {V : Type} [DecidableEq V] (log : InteractionLog V)
    (_hcap : 1 ≤ log.max_size) (n : Int) :
    (log.clear).buffer = log.buffer ∧ (log.clear).max_size = log.max_size
    ∧ (log.clear).head = 0 ∧ (log.clear).count = 0
    ∧ (log.clear).get_recent n = [] ∧ (log.clear).get_stats = (0, []) :=
  ⟨rfl, rfl, rfl, rfl, get_recent_of_count_zero log.clear rfl n,
    get_stats_of_count_zero log.clear rfl⟩

/-- Claim C10: for every valid log state and every negative `n`,
`get_recent n` returns the empty list rather than an error. -/
theorem claim10_get_recent_negative {V : Type} (log : InteractionLog V)
    (_hcap : 1 ≤ log.max_size) (n : Int) (hn : n < 0) :
    log.get_recent n = [] := by
  simp only [InteractionLog.get_recent]
  have h0 : (min n (log.count : Int)).toNat = 0 :=
    Int.toNat_of_nonpos (le_trans (min_le_left _ _) (by omega))
  rw [h0]
  rfl

/-- Claim C3 (code bug): construction with a non-positive capacity does NOT
fail fast.  `InteractionLog(max_size=0)` succeeds silently with an empty
buffer (`[None] * 0 == []`), and the failure is deferred to the first `add`,
which raises `IndexError`; likewise for a negative capacity.  The `init`
constructor below performs no validation at all, contradicting the spec's
requirement that a non-positive capacity fail loudly at construction
time. -/
theorem claim3_init_accepts_nonpositive_capacity :
    (InteractionLog.init String 0).buffer = []
    ∧ (InteractionLog.init String 0).max_size = 0
    ∧ (InteractionLog.init String 0).count = 0
    ∧ (InteractionLog.init String 0).addE "2025-01-01T00:00:00+00:00" []
        = Except.error "IndexError: list assignment index out of range"
    ∧ (InteractionLog.init String (-1)).addE "2025-01-01T00:00:00+00:00" []
        = Except.error "IndexError: list assignment index out of range" :=
  ⟨rfl, rfl, rfl, rfl, rfl⟩

/-- Claim C8 counterexample: a caller-supplied `timestamp` keyword
overrides the log's stamp (`{"timestamp": ts, **kwargs}` lets `kwargs`
win), so the stored entry's `timestamp` is NOT the value stamped by the log
at insertion time — refuting the claim "whatever fields the caller
supplied". -/
theorem claim8_counterexample :
    dictGet (mkEntry "LOG-STAMP" [("timestamp", "caller-supplied")]) "timestamp"
      = some "caller-supplied"
    ∧ ("caller-supplied" : String) ≠ "LOG-STAMP"
    ∧ ((InteractionLog.init String 2).add "LOG-STAMP"
        [("timestamp", "caller-supplied")]).get_recent 1
      = [[("timestamp", "caller-supplied")]] :=
  ⟨by decide, by decide, by decide⟩

/-- Claim C8 (amended): every stored entry carries a `timestamp` field;
when the caller does not supply a `timestamp` keyword its value is the
log's stamp recorded before the entry is stored, and every entry returned
by `get_recent` on any reachable log contains a `timestamp` field. -/
theorem claim8_amended_timestamp {V : Type} (c : Nat) (hc : 1 ≤ c)
    (ops : List (LogOp V)) (n : Int) (ts : V) (kwargs : List (String × V))
    (hkw : ∀ p ∈ kwargs, p.1 ≠ "timestamp") :
    dictGet (mkEntry ts kwargs) "timestamp" = some ts
    ∧ ∀ e ∈ (runOps (InteractionLog.init V (c : Int)) ops).get_recent n,
        (dictGet e "timestamp").isSome := by
  refine ⟨mkEntry_timestamp_of_not_mem ts kwargs hkw, ?_⟩
  intro e he
  have hrep := absRun_repOk c hc ops
  rw [get_recent_spec c hrep n] at he
  obtain ⟨ts2, kw2, rfl⟩ :=
    absRun_mem_mkEntry c ops e (List.drop_subset _ _ he)
  exact mkEntry_timestamp_isSome ts2 kw2

/-- Witness for C1 at capacity 2, three adds, window 2. -/
theorem claim1_witness :
    (runOps (InteractionLog.init String (2 : Int)) (addsOf sampleInputs)).get_recent ((2 : Nat) : Int)
      = (entriesOf sampleInputs).drop (sampleInputs.length
          - min 2 (runOps (InteractionLog.init String (2 : Int)) (addsOf sampleInputs)).count)
    ∧ ((runOps (InteractionLog.init String (2 : Int)) (addsOf sampleInputs)).get_recent ((2 : Nat) : Int)).length
      = min 2 (runOps (InteractionLog.init String (2 : Int)) (addsOf sampleInputs)).count
    ∧ (runOps (InteractionLog.init String (2 : Int)) (addsOf sampleInputs)).get_recent 0 = [] :=
  claim1_get_recent_window 2 (by decide) sampleInputs 2

/-- Witness for C2 at capacity 2 with three prior adds and a fourth add. -/
theorem claim2_witness :
    (runOps (InteractionLog.init String (2 : Int)) (addsOf sampleInputs)).count = 2
    ∧ (runOps (InteractionLog.init String (2 : Int)) (addsOf sampleInputs)).get_recent ((5 : Nat) : Int)
        = (entriesOf sampleInputs).drop (sampleInputs.length - 2)
    ∧ ((runOps (InteractionLog.init String (2 : Int)) (addsOf sampleInputs)).add "t4" [("type", "mcp")]).buffer
        = (runOps (InteractionLog.init String (2 : Int)) (addsOf sampleInputs)).buffer.set
            (runOps (InteractionLog.init String (2 : Int)) (addsOf sampleInputs)).head
            (some (mkEntry "t4" [("type", "mcp")]))
    ∧ ((runOps (InteractionLog.init String (2 : Int)) (addsOf sampleInputs)).add "t4" [("type", "mcp")]).count = 2
    ∧ ((runOps (InteractionLog.init String (2 : Int)) (addsOf sampleInputs)).add "t4" [("type", "mcp")]).get_recent ((5 : Nat) : Int)
        = ((entriesOf sampleInputs).drop (sampleInputs.length - 2)).drop 1
            ++ [mkEntry "t4" [("type", "mcp")]]
    ∧ (runOps (InteractionLog.init String (2 : Int)) (addsOf sampleInputs)).get_stats
        = (2, typeCounts ((entriesOf sampleInputs).drop (sampleInputs.length - 2))) :=
  claim2_overwrite_discipline 2 (by decide) sampleInputs (by decide) 5 (by decide)
    "t4" [("type", "mcp")]

/-- Witness for C4 at capacity 2 with three adds. -/
theorem claim4_witness :
    (sampleInputs.length ≤ 2 →
      ((runOps (InteractionLog.init String (2 : Int)) (addsOf sampleInputs)).get_stats).1
        = sampleInputs.length)
    ∧ (2 < sampleInputs.length →
      ((runOps (InteractionLog.init String (2 : Int)) (addsOf sampleInputs)).get_stats).1 = 2) :=
  claim4_stats_total 2 (by decide) sampleInputs

/-- Witness for C5 at capacity 2 over a sequence containing a clear. -/
theorem claim5_witness :
    sumCounts ((runOps (InteractionLog.init String (2 : Int)) sampleOps).get_stats).2
      + ((runOps (InteractionLog.init String (2 : Int)) sampleOps).get_recent
          (((runOps (InteractionLog.init String (2 : Int)) sampleOps).count : Nat) : Int)).countP
          (fun e => (dictGet e "type").isNone)
      = ((runOps (InteractionLog.init String (2 : Int)) sampleOps).get_stats).1 :=
  claim5_stats_partition 2 (by decide) sampleOps

/-- Witness for C6 on a capacity-3 log holding one entry. -/
theorem claim6_witness :
    (((InteractionLog.init String 3).add "t1" [("type", "mcp")]).clear).get_recent 7 = []
    ∧ (((InteractionLog.init String 3).add "t1" [("type", "mcp")]).clear).get_stats = (0, []) :=
  claim6_clear_then_read_empty ((InteractionLog.init String 3).add "t1" [("type", "mcp")])
    (by decide) 7

/-- Witness for C7 on a capacity-2 log holding one entry. -/
theorem claim7_witness :
    (((InteractionLog.init String 2).add "t9" []).clear).buffer
        = ((InteractionLog.init String 2).add "t9" []).buffer
    ∧ (((InteractionLog.init String 2).add "t9" []).clear).max_size
        = ((InteractionLog.init String 2).add "t9" []).max_size
    ∧ (((InteractionLog.init String 2).add "t9" []).clear).head = 0
    ∧ (((InteractionLog.init String 2).add "t9" []).clear).count = 0
    ∧ (((InteractionLog.init String 2).add "t9" []).clear).get_recent 4 = []
    ∧ (((InteractionLog.init String 2).add "t9" []).clear).get_stats = (0, []) :=
  claim7_clear_frame ((InteractionLog.init String 2).add "t9" []) (by decide) 4

/-- Witness for C8 (amended) at capacity 2 over a sequence with a clear. -/
theorem claim8_witness :
    dictGet (mkEntry "T0" [("tool", "getPrice")]) "timestamp" = some "T0"
    ∧ ∀ e ∈ (runOps (InteractionLog.init String (2 : Int)) sampleOps).get_recent 3,
        (dictGet e "timestamp").isSome :=
  claim8_amended_timestamp 2 (by decide) sampleOps 3 "T0" [("tool", "getPrice")]
    (by decide)

/-- Witness for C10 on a capacity-2 log holding one entry, with n = -1. -/
theorem claim10_witness :
    ((InteractionLog.init String 2).add "t" []).get_recent (-1) = [] :=
  claim10_get_recent_negative ((InteractionLog.init String 2).add "t" []) (by decide)
    (-1) (by decide)


end ILog
